import Mathlib

/-!
Verification of the covariance engine exposed by `src/src/RcppExports.cpp`
(the cytominergallery native routines `online_covar`, `two_pass_multi_covar`
and `combine_cov_estimates`, together with their exported Rcpp wrappers).

The repository's visible source contains only the auto-generated binding
layer: the three native bodies live outside it, so they are modelled here
from the specification (spec.md sections 4.1-4.3 and 7), using exact
rational arithmetic in place of IEEE doubles.  The Rcpp wrapper functions
themselves are embedded from the source file.
-/

namespace CytominerGallery

/-- The error taxonomy of spec.md section 7: DimensionMismatch,
InsufficientSamples, ShapeMismatch. -/
inductive CovErr where
  | dimensionMismatch
  | insufficientSamples
  | shapeMismatch
deriving DecidableEq, Repr

/-- Mean of a list of rationals (0 for the empty list, via division by 0). -/
def mean (xs : List ℚ) : ℚ := xs.sum / xs.length

/-- One observation row of a sample matrix with `p` variables (columns). -/
abbrev Sample (p : ℕ) := Fin p → ℚ

/-- The list of values of column `j` across all rows. -/
def colVals {p : ℕ} (rows : List (Sample p)) (j : Fin p) : List ℚ :=
  rows.map (fun r => r j)

/-- Column mean (pass 1 of the two-pass algorithm). -/
def colMean {p : ℕ} (rows : List (Sample p)) (j : Fin p) : ℚ :=
  (colVals rows j).sum / rows.length

/-- Sum of centered cross-products of columns `i` and `j`
(pass 2 of the two-pass algorithm). -/
def crossSum {p : ℕ} (rows : List (Sample p)) (i j : Fin p) : ℚ :=
  (rows.map (fun r => (r i - colMean rows i) * (r j - colMean rows j))).sum

/-- Sample covariance of columns `i` and `j` with Bessel's correction. -/
def covEntry {p : ℕ} (rows : List (Sample p)) (i j : Fin p) : ℚ :=
  crossSum rows i j / ((rows.length : ℚ) - 1)

/-- Modelled from the spec: the matrix built by `two_pass_multi_covar`
(body not in the visible source).  Each unordered pair `(i, j)` with
`i ≤ j` is computed once and mirrored to `(j, i)` (spec 4.2: "computed
once per pair, mirrored, not recomputed twice"). -/
def two_pass_matrix {p : ℕ} (rows : List (Sample p)) : Fin p → Fin p → ℚ :=
  fun i j => if i ≤ j then covEntry rows i j else covEntry rows j i

/-- Modelled from the spec: `two_pass_multi_covar` (body not in the visible
source).  Given a sample matrix (rows = samples), returns the p x p sample
covariance matrix via the two-pass method; fails if fewer than 2 rows
(spec 4.2 error condition). -/
def two_pass_multi_covar {p : ℕ} (rows : List (Sample p)) :
    Except CovErr (Fin p → Fin p → ℚ) :=
  if rows.length < 2 then .error .insufficientSamples
  else .ok (two_pass_matrix rows)

/-- State of the streaming (Welford-style) covariance pass:
count, running means of both coordinates, running co-moment. -/
structure OCState where
  k : ℕ
  mx : ℚ
  my : ℚ
  c : ℚ
deriving DecidableEq, Repr

/-- One Welford-style co-moment update (spec 4.1: "updates running means
and a running cross-product accumulator"). -/
def ocStep (st : OCState) (xy : ℚ × ℚ) : OCState :=
  let k : ℕ := st.k + 1
  let dx : ℚ := xy.1 - st.mx
  let mx : ℚ := st.mx + dx / (k : ℚ)
  let my : ℚ := st.my + (xy.2 - st.my) / (k : ℚ)
  ⟨k, mx, my, st.c + dx * (xy.2 - my)⟩

/-- Modelled from the spec: `online_covar` (body not in the visible source).
Single streaming pass over the paired observations; fails with a
length-mismatch error when the inputs differ in length, and fails (the
documented policy chosen here) when fewer than 2 observations. -/
def online_covar (x1 x2 : List ℚ) : Except CovErr ℚ :=
  if x1.length ≠ x2.length then .error .dimensionMismatch
  else if x1.length < 2 then .error .insufficientSamples
  else
    let st := (x1.zip x2).foldl ocStep ⟨0, 0, 0, 0⟩
    .ok (st.c / ((st.k : ℚ) - 1))

/-- The sample covariance of two equal-length sequences, written exactly as
spec 4.1 states it: sum of `(x1[i] - mean x1) * (x2[i] - mean x2)` divided
by `n - 1`. -/
def pairSampleCov (x1 x2 : List ℚ) : ℚ :=
  ((x1.zip x2).map (fun t => (t.1 - mean x1) * (t.2 - mean x2))).sum /
    ((x1.length : ℚ) - 1)

/-- The sample variance of a single sequence: sum of squared deviations
from the mean divided by `n - 1`. -/
def sampleVariance (xs : List ℚ) : ℚ :=
  (xs.map (fun x => (x - mean xs) ^ 2)).sum / ((xs.length : ℚ) - 1)

/-- A partial result fed to the combiner: per-partition mean vector and
p x p covariance matrix (spec 4.3: the design accepts per-partition means
as auxiliary input alongside the partial matrices). -/
structure PartialStats (p : ℕ) where
  mean : Fin p → ℚ
  cov : Fin p → Fin p → ℚ

/-- A partial result together with its partition sample count. -/
@[ext]
structure PartialCov (p : ℕ) where
  n : ℕ
  mean : Fin p → ℚ
  cov : Fin p → Fin p → ℚ

/-- Modelled from the spec: the pairwise combination step of
`combine_cov_estimates` (body not in the visible source), exactly the
parallel-covariance formula of spec 4.3: combined n, count-weighted mean,
and degrees-of-freedom-weighted covariances plus the mean-shift correction
term, divided by `combined_n - 1`. -/
def combinePair {p : ℕ} (a b : PartialCov p) : PartialCov p where
  n := a.n + b.n
  mean := fun i =>
    ((a.n : ℚ) * a.mean i + (b.n : ℚ) * b.mean i) / ((a.n : ℚ) + (b.n : ℚ))
  cov := fun i j =>
    (((a.n : ℚ) - 1) * a.cov i j + ((b.n : ℚ) - 1) * b.cov i j +
        (a.mean i - b.mean i) * (a.mean j - b.mean j) *
          ((a.n : ℚ) * (b.n : ℚ) / ((a.n : ℚ) + (b.n : ℚ)))) /
      (((a.n : ℚ) + (b.n : ℚ)) - 1)

/-- Executable symmetry check on a p x p matrix. -/
def symmCheck {p : ℕ} (c : Fin p → Fin p → ℚ) : Bool :=
  decide (∀ i j, c i j = c j i)

/-- Pair a partial result with its sample count. -/
def toPC {p : ℕ} (q : PartialStats p × ℕ) : PartialCov p :=
  ⟨q.2, q.1.mean, q.1.cov⟩

/-- Modelled from the spec: `combine_cov_estimates` (body not in the
visible source).  Validates eagerly (spec 7): the sample-count list must
align with the partial-result list, every partial matrix must be symmetric,
and the total combined count must be at least 2; then folds the pairwise
combination over all partitions and returns the combined covariance
matrix. -/
def combine_cov_estimates {p : ℕ} (parts : List (PartialStats p))
    (ns : List ℕ) : Except CovErr (Fin p → Fin p → ℚ) :=
  if parts.length ≠ ns.length then .error .shapeMismatch
  else if parts.all (fun q => symmCheck q.cov) then
    if ns.sum < 2 then .error .insufficientSamples
    else
      match parts.zip ns with
      | [] => .error .insufficientSamples
      | q :: rest => .ok ((rest.map toPC).foldl combinePair (toPC q)).cov
  else .error .shapeMismatch

/-- The exact sufficient statistics of a dataset: row count, column means
and (unmirrored) sample covariance entries. -/
def statsFull {p : ℕ} (rows : List (Sample p)) : PartialCov p :=
  ⟨rows.length, colMean rows, fun i j => covEntry rows i j⟩

/-- A value handed back to the host interpreter by the binding layer. -/
inductive HostValue where
  | real (x : ℚ)
  | rmat (p : ℕ) (m : Fin p → Fin p → ℚ)

/-- Outcome at the language boundary: a wrapped value on success, or a
host-interpreter error when the native routine threw. -/
inductive HostResult where
  | ok (v : HostValue)
  | rerror (e : CovErr)

/-- Invoke a native routine, counting the invocation (the second component
of the result records how many times the native function was entered). -/
def callCounted {α β : Type} (f : α → Except CovErr β) (a : α) (calls : ℕ) :
    Except CovErr β × ℕ :=
  (f a, calls + 1)

/-- The BEGIN_RCPP/END_RCPP barrier: a C++ exception escaping the native
call is caught and converted into a host-interpreter error instead of
terminating the process. -/
def beginEndRcpp (r : Except CovErr HostValue) : HostResult :=
  match r with
  | .ok v => .ok v
  | .error e => .rerror e

/-- Embeds `cytominergallery_online_covar` from `src/src/RcppExports.cpp`:
marshal the two vectors, invoke the native routine once inside the
BEGIN_RCPP/END_RCPP barrier, wrap the result. -/
def cytominergallery_online_covar (x1 x2 : List ℚ) : HostResult × ℕ :=
  let rc := callCounted (fun t => online_covar t.1 t.2) (x1, x2) 0
  (beginEndRcpp (rc.1.map .real), rc.2)

/-- Embeds `cytominergallery_two_pass_multi_covar` from
`src/src/RcppExports.cpp`. -/
def cytominergallery_two_pass_multi_covar {p : ℕ} (s : List (Sample p)) :
    HostResult × ℕ :=
  let rc := callCounted (fun m => two_pass_multi_covar m) s 0
  (beginEndRcpp (rc.1.map (.rmat p)), rc.2)

/-- Embeds `cytominergallery_combine_cov_estimates` from
`src/src/RcppExports.cpp`. -/
def cytominergallery_combine_cov_estimates {p : ℕ}
    (mn_covs : List (PartialStats p)) (ns : List ℕ) : HostResult × ℕ :=
  let rc := callCounted (fun t => combine_cov_estimates t.1 t.2) (mn_covs, ns) 0
  (beginEndRcpp (rc.1.map (.rmat p)), rc.2)

/-- Sufficient statistic: count-weighted mean, `n * mean i`. -/
def sVec {p : ℕ} (a : PartialCov p) (i : Fin p) : ℚ := (a.n : ℚ) * a.mean i

/-- Sufficient statistic: raw second-moment aggregate,
`(n - 1) * cov i j + n * mean i * mean j`. -/
def qMat {p : ℕ} (a : PartialCov p) (i j : Fin p) : ℚ :=
  ((a.n : ℚ) - 1) * a.cov i j + (a.n : ℚ) * a.mean i * a.mean j

/-- The per-partition payload handed to the combiner for one group of rows:
the group's mean vector together with its two-pass covariance matrix. -/
def groupStats {p : ℕ} (g : List (Sample p)) : PartialStats p :=
  ⟨colMean g, two_pass_matrix g⟩

/-! ### Concrete inputs used by the witnesses -/

def exX1 : List ℚ := [1, 2, 3, 4]

def exX2 : List ℚ := [2, 4, 6, 8]

def exG1 : List (Sample 2) := [![1, 2], ![3, 5]]

def exG2 : List (Sample 2) := [![2, 2], ![7, 1]]

def exRows : List (Sample 2) := [![1, 2], ![3, 5], ![2, 2], ![7, 1]]

def exPa : PartialCov 1 := ⟨2, fun _ => 5, fun _ _ => 4⟩

def exPb : PartialCov 1 := ⟨3, fun _ => 9, fun _ _ => 4⟩

def exPc : PartialCov 1 := ⟨4, fun _ => 7, fun _ _ => 2⟩

def exAsym : PartialStats 2 := ⟨fun _ => 0, ![![0, 1], ![0, 0]]⟩

def exSym : PartialStats 1 := ⟨fun _ => 0, fun _ _ => 0⟩

/-! ### Basic summation lemmas -/

theorem centered_sum {α : Type} (l : List α) (f g : α → ℚ) (a b : ℚ) :
    (l.map (fun x => (f x - a) * (g x - b))).sum =
      (l.map (fun x => f x * g x)).sum - a * (l.map g).sum - b * (l.map f).sum +
        (l.length : ℚ) * (a * b) := by
  induction l with
  | nil => simp
  | cons x t ih =>
    simp only [List.map_cons, List.sum_cons, ih, List.length_cons]
    push_cast
    ring

theorem crossSum_eq {p : ℕ} (rows : List (Sample p)) (i j : Fin p) :
    crossSum rows i j =
      (rows.map (fun r => r i * r j)).sum -
        (colVals rows i).sum * (colVals rows j).sum / (rows.length : ℚ) := by
  rcases eq_or_ne rows [] with h | h
  · subst h; simp [crossSum, colVals]
  · have hn : (rows.length : ℚ) ≠ 0 := by
      exact_mod_cast fun h0 => h (List.length_eq_zero.mp (by exact_mod_cast h0))
    unfold crossSum colMean colVals
    rw [centered_sum rows (fun r => r i) (fun r => r j)]
    field_simp
    ring

theorem crossSum_comm {p : ℕ} (rows : List (Sample p)) (i j : Fin p) :
    crossSum rows i j = crossSum rows j i := by
  unfold crossSum
  refine congrArg List.sum (List.map_congr_left fun r _ => ?_)
  ring

theorem covEntry_comm {p : ℕ} (rows : List (Sample p)) (i j : Fin p) :
    covEntry rows i j = covEntry rows j i := by
  unfold covEntry
  rw [crossSum_comm]

theorem two_pass_matrix_eq_covEntry {p : ℕ} (rows : List (Sample p))
    (i j : Fin p) : two_pass_matrix rows i j = covEntry rows i j := by
  unfold two_pass_matrix
  by_cases hij : i ≤ j
  · simp [hij]
  · simp [hij, covEntry_comm rows j i]

theorem two_pass_matrix_comm {p : ℕ} (rows : List (Sample p)) (i j : Fin p) :
    two_pass_matrix rows i j = two_pass_matrix rows j i := by
  rw [two_pass_matrix_eq_covEntry, two_pass_matrix_eq_covEntry,
    covEntry_comm]

theorem symmCheck_two_pass {p : ℕ} (rows : List (Sample p)) :
    symmCheck (two_pass_matrix rows) = true := by
  unfold symmCheck
  rw [decide_eq_true_eq]
  exact fun i j => two_pass_matrix_comm rows i j

/-! ### Invariance of the statistics under row permutation -/

theorem colVals_sum_perm {p : ℕ} {X Y : List (Sample p)} (h : X.Perm Y)
    (j : Fin p) : (colVals X j).sum = (colVals Y j).sum := by
  unfold colVals
  exact (h.map (fun r => r j)).sum_eq

theorem colMean_perm {p : ℕ} {X Y : List (Sample p)} (h : X.Perm Y)
    (j : Fin p) : colMean X j = colMean Y j := by
  unfold colMean
  rw [colVals_sum_perm h, h.length_eq]

theorem prod_sum_perm {p : ℕ} {X Y : List (Sample p)} (h : X.Perm Y)
    (i j : Fin p) :
    (X.map (fun r => r i * r j)).sum = (Y.map (fun r => r i * r j)).sum :=
  (h.map (fun r => r i * r j)).sum_eq

theorem covEntry_perm {p : ℕ} {X Y : List (Sample p)} (h : X.Perm Y)
    (i j : Fin p) : covEntry X i j = covEntry Y i j := by
  unfold covEntry
  rw [crossSum_eq, crossSum_eq, colVals_sum_perm h, colVals_sum_perm h,
    prod_sum_perm h, h.length_eq]

/-! ### Correctness of the pairwise combination formula -/

theorem sub_one_mul_covEntry {p : ℕ} {rows : List (Sample p)}
    (h : rows ≠ []) (i j : Fin p) :
    ((rows.length : ℚ) - 1) * covEntry rows i j = crossSum rows i j := by
  rcases Nat.lt_or_ge rows.length 2 with h2 | h2
  · have h1 : rows.length = 1 := by
      have := List.length_pos.mpr h
      omega
    obtain ⟨r, hr⟩ := List.length_eq_one.mp h1
    subst hr
    have hc : crossSum [r] i j = 0 := by
      simp [crossSum, colMean, colVals]
    rw [hc]
    simp
  · have h1 : ((rows.length : ℚ) - 1) ≠ 0 := by
      have : (2 : ℚ) ≤ (rows.length : ℚ) := by exact_mod_cast h2
      intro h0
      nlinarith
    unfold covEntry
    rw [mul_div_cancel₀ _ h1]

theorem statsFull_append {p : ℕ} {A B : List (Sample p)} (hA : A ≠ [])
    (hB : B ≠ []) :
    statsFull (A ++ B) = combinePair (statsFull A) (statsFull B) := by
  have ha : (0 : ℚ) < A.length := by exact_mod_cast List.length_pos.mpr hA
  have hb : (0 : ℚ) < B.length := by exact_mod_cast List.length_pos.mpr hB
  have hna : (A.length : ℚ) ≠ 0 := ne_of_gt ha
  have hnb : (B.length : ℚ) ≠ 0 := ne_of_gt hb
  have hn : (A.length : ℚ) + (B.length : ℚ) ≠ 0 := by
    have : (0 : ℚ) < (A.length : ℚ) + (B.length : ℚ) := by linarith
    exact ne_of_gt this
  have hN : (statsFull (A ++ B)).n = (combinePair (statsFull A) (statsFull B)).n := by
    simp [statsFull, combinePair]
  have hM : ∀ i, (statsFull (A ++ B)).mean i =
      (combinePair (statsFull A) (statsFull B)).mean i := by
    intro i
    show colMean (A ++ B) i = _
    unfold colMean colVals combinePair statsFull
    simp only [List.map_append, List.sum_append, List.length_append]
    unfold colMean colVals
    push_cast
    field_simp
  have hC : ∀ i j, (statsFull (A ++ B)).cov i j =
      (combinePair (statsFull A) (statsFull B)).cov i j := by
    intro i j
    show covEntry (A ++ B) i j = _
    unfold combinePair statsFull
    simp only []
    rw [sub_one_mul_covEntry hA i j, sub_one_mul_covEntry hB i j]
    unfold covEntry
    rw [crossSum_eq (A ++ B) i j, crossSum_eq A i j, crossSum_eq B i j]
    unfold colVals colMean colVals
    simp only [List.map_append, List.sum_append, List.length_append]
    push_cast
    congr 1
    field_simp
    ring
  exact PartialCov.ext hN (funext hM) (funext fun i => funext fun j => hC i j)

theorem foldl_statsFull {p : ℕ} (gs : List (List (Sample p))) :
    ∀ g : List (Sample p), g ≠ [] → (∀ x ∈ gs, x ≠ []) →
      (gs.map statsFull).foldl combinePair (statsFull g) =
        statsFull (g :: gs).flatten := by
  induction gs with
  | nil =>
    intro g hg _
    simp
  | cons h t ih =>
    intro g hg hall
    have hh : h ≠ [] := hall h (by simp)
    have ht : ∀ x ∈ t, x ≠ [] := fun x hx => hall x (by simp [hx])
    simp only [List.map_cons, List.foldl_cons]
    rw [← statsFull_append hg hh, ih (g ++ h)
      (List.append_ne_nil_of_left_ne_nil hg h) ht]
    simp [List.flatten_cons, List.append_assoc]

/-! ### The streaming pass computes the exact moment sums -/

theorem ocFold_spec (l : List (ℚ × ℚ)) :
    l.foldl ocStep ⟨0, 0, 0, 0⟩ =
      ⟨l.length, (l.map Prod.fst).sum / (l.length : ℚ),
        (l.map Prod.snd).sum / (l.length : ℚ),
        (l.map (fun t => t.1 * t.2)).sum -
          (l.map Prod.fst).sum * (l.map Prod.snd).sum / (l.length : ℚ)⟩ := by
  induction l using List.reverseRecOn with
  | nil => simp [ocStep]
  | append_singleton t xy ih =>
    rw [List.foldl_append, List.foldl_cons, List.foldl_nil, ih]
    rcases eq_or_ne t [] with ht | ht
    · subst ht
      simp [ocStep]
    · have hm : (t.length : ℚ) ≠ 0 := by
        exact_mod_cast ne_of_gt
          (show (0 : ℚ) < t.length by exact_mod_cast List.length_pos.mpr ht)
      have hm1 : ((t.length : ℚ) + 1) ≠ 0 := by positivity
      simp only [ocStep, List.map_append, List.sum_append, List.length_append,
        List.map_cons, List.map_nil, List.sum_cons, List.sum_nil,
        List.length_cons, List.length_nil, OCState.mk.injEq]
      push_cast
      refine ⟨by push_cast, ?_, ?_, ?_⟩
      · field_simp
        ring
      · field_simp
        ring
      · field_simp
        ring

/-! ### The streaming covariance agrees with the textbook formula -/

theorem zip_map_fst {x1 x2 : List ℚ} (h : x1.length = x2.length) :
    (x1.zip x2).map Prod.fst = x1 :=
  List.map_fst_zip x1 x2 (le_of_eq h)

theorem zip_map_snd {x1 x2 : List ℚ} (h : x1.length = x2.length) :
    (x1.zip x2).map Prod.snd = x2 :=
  List.map_snd_zip x1 x2 (le_of_eq h.symm)

theorem zip_length_eq {x1 x2 : List ℚ} (h : x1.length = x2.length) :
    (x1.zip x2).length = x1.length := by
  rw [List.length_zip, h, min_self]

theorem online_covar_ok {x1 x2 : List ℚ} (h : x1.length = x2.length)
    (hn : 2 ≤ x1.length) :
    online_covar x1 x2 = .ok (pairSampleCov x1 x2) := by
  have c1 : ¬(x1.length ≠ x2.length) := fun hc => hc h
  have n0 : (x1.length : ℚ) ≠ 0 := by
    have : (0 : ℚ) < x1.length := by exact_mod_cast Nat.lt_of_lt_of_le two_pos hn
    exact ne_of_gt this
  unfold online_covar
  rw [if_neg c1, if_neg (Nat.not_lt.mpr hn)]
  simp only [ocFold_spec]
  apply congrArg
  unfold pairSampleCov mean
  rw [centered_sum (x1.zip x2) Prod.fst Prod.snd, zip_map_fst h, zip_map_snd h,
    zip_length_eq h]
  congr 1
  rw [← h]
  field_simp
  ring

theorem pairSampleCov_comm {x1 x2 : List ℚ} (h : x1.length = x2.length) :
    pairSampleCov x1 x2 = pairSampleCov x2 x1 := by
  have hp : ((x2.zip x1).map (fun t => t.1 * t.2)).sum =
      ((x1.zip x2).map (fun t => t.1 * t.2)).sum := by
    rw [← List.zip_swap x1 x2, List.map_map]
    exact congrArg List.sum (List.map_congr_left fun t _ => by
      simp [Function.comp]
      ring)
  unfold pairSampleCov mean
  rw [centered_sum (x1.zip x2) Prod.fst Prod.snd,
    centered_sum (x2.zip x1) Prod.fst Prod.snd, zip_map_fst h, zip_map_snd h,
    zip_map_fst h.symm, zip_map_snd h.symm, zip_length_eq h,
    zip_length_eq h.symm, h, hp]
  ring

/-! ### Associativity of the pairwise combination -/

theorem combinePair_n {p : ℕ} (a b : PartialCov p) :
    (combinePair a b).n = a.n + b.n := rfl

theorem sVec_combine {p : ℕ} {a b : PartialCov p} (ha : 1 ≤ a.n)
    (hb : 1 ≤ b.n) (i : Fin p) :
    sVec (combinePair a b) i = sVec a i + sVec b i := by
  have ha' : (1 : ℚ) ≤ (a.n : ℚ) := by exact_mod_cast ha
  have hb' : (1 : ℚ) ≤ (b.n : ℚ) := by exact_mod_cast hb
  have hn : (a.n : ℚ) + (b.n : ℚ) ≠ 0 := ne_of_gt (by linarith)
  unfold sVec combinePair
  simp only []
  push_cast
  exact mul_div_cancel₀ _ hn

theorem qMat_combine {p : ℕ} {a b : PartialCov p} (ha : 1 ≤ a.n)
    (hb : 1 ≤ b.n) (i j : Fin p) :
    qMat (combinePair a b) i j = qMat a i j + qMat b i j := by
  have ha' : (1 : ℚ) ≤ (a.n : ℚ) := by exact_mod_cast ha
  have hb' : (1 : ℚ) ≤ (b.n : ℚ) := by exact_mod_cast hb
  have hn : (a.n : ℚ) + (b.n : ℚ) ≠ 0 := ne_of_gt (by linarith)
  have hn1 : ((a.n : ℚ) + (b.n : ℚ)) - 1 ≠ 0 := ne_of_gt (by linarith)
  unfold qMat combinePair
  simp only []
  push_cast
  rw [mul_div_cancel₀ _ hn1]
  field_simp
  ring

theorem mean_of_sVec {p : ℕ} {x : PartialCov p} (h : 1 ≤ x.n) (i : Fin p) :
    x.mean i = sVec x i / (x.n : ℚ) := by
  have hn : (x.n : ℚ) ≠ 0 := by
    have : (1 : ℚ) ≤ (x.n : ℚ) := by exact_mod_cast h
    exact ne_of_gt (by linarith)
  unfold sVec
  rw [mul_div_cancel_left₀ _ hn]

theorem cov_of_qMat {p : ℕ} {x : PartialCov p} (h : 2 ≤ x.n) (i j : Fin p) :
    x.cov i j =
      (qMat x i j - sVec x i * sVec x j / (x.n : ℚ)) / ((x.n : ℚ) - 1) := by
  have h2 : (2 : ℚ) ≤ (x.n : ℚ) := by exact_mod_cast h
  have hn : (x.n : ℚ) ≠ 0 := ne_of_gt (by linarith)
  have hn1 : (x.n : ℚ) - 1 ≠ 0 := ne_of_gt (by linarith)
  unfold qMat sVec
  field_simp
  ring

theorem combinePair_assoc {p : ℕ} {a b c : PartialCov p} (ha : 1 ≤ a.n)
    (hb : 1 ≤ b.n) (hc : 1 ≤ c.n) :
    combinePair (combinePair a b) c = combinePair a (combinePair b c) := by
  have hab : 1 ≤ (combinePair a b).n := by rw [combinePair_n]; omega
  have hbc : 1 ≤ (combinePair b c).n := by rw [combinePair_n]; omega
  have h2L : 2 ≤ (combinePair (combinePair a b) c).n := by
    rw [combinePair_n, combinePair_n]; omega
  have h2R : 2 ≤ (combinePair a (combinePair b c)).n := by
    rw [combinePair_n, combinePair_n]; omega
  have h1L : 1 ≤ (combinePair (combinePair a b) c).n := le_trans one_le_two h2L
  have h1R : 1 ≤ (combinePair a (combinePair b c)).n := le_trans one_le_two h2R
  have hNN : (combinePair (combinePair a b) c).n =
      (combinePair a (combinePair b c)).n := by
    rw [combinePair_n, combinePair_n, combinePair_n, combinePair_n,
      Nat.add_assoc]
  have hS : ∀ i, sVec (combinePair (combinePair a b) c) i =
      sVec (combinePair a (combinePair b c)) i := by
    intro i
    rw [sVec_combine hab hc, sVec_combine ha hb, sVec_combine ha hbc,
      sVec_combine hb hc]
    ring
  have hQ : ∀ i j, qMat (combinePair (combinePair a b) c) i j =
      qMat (combinePair a (combinePair b c)) i j := by
    intro i j
    rw [qMat_combine hab hc, qMat_combine ha hb, qMat_combine ha hbc,
      qMat_combine hb hc]
    ring
  have hM : ∀ i, (combinePair (combinePair a b) c).mean i =
      (combinePair a (combinePair b c)).mean i := by
    intro i
    rw [mean_of_sVec h1L, mean_of_sVec h1R, hS i, hNN]
  have hCv : ∀ i j, (combinePair (combinePair a b) c).cov i j =
      (combinePair a (combinePair b c)).cov i j := by
    intro i j
    rw [cov_of_qMat h2L, cov_of_qMat h2R, hQ i j, hS i, hS j, hNN]
  exact PartialCov.ext hNN (funext hM)
    (funext fun i => funext fun j => hCv i j)

theorem combinePair_comm {p : ℕ} (a b : PartialCov p) :
    combinePair a b = combinePair b a := by
  refine PartialCov.ext (Nat.add_comm _ _) (funext fun i => ?_)
    (funext fun i => funext fun j => ?_) <;>
    unfold combinePair <;> simp only [] <;> ring

/-! ### The partition round trip -/

theorem toPC_groupStats {p : ℕ} (g : List (Sample p)) :
    toPC (groupStats g, g.length) = statsFull g := by
  refine PartialCov.ext rfl rfl ?_
  funext i j
  exact two_pass_matrix_eq_covEntry g i j

/-- C1: splitting a sample matrix into row groups, computing the two-pass
covariance of each group with its count and mean, and combining, recovers
the direct two-pass covariance of the whole matrix (exactly, over ℚ). -/
theorem partition_combine_roundtrip {p : ℕ} (M : List (Sample p))
    (gs : List (List (Sample p))) (hk : gs ≠ [])
    (hg : ∀ g ∈ gs, 2 ≤ g.length) (hperm : gs.flatten.Perm M) :
    (∀ g ∈ gs, two_pass_multi_covar g = .ok (two_pass_matrix g)) ∧
      two_pass_multi_covar M = .ok (two_pass_matrix M) ∧
      combine_cov_estimates (gs.map groupStats) (gs.map List.length) =
        .ok (two_pass_matrix M) := by
  obtain ⟨g0, gt, rfl⟩ := List.exists_cons_of_ne_nil hk
  have h0 : 2 ≤ g0.length := hg g0 (by simp)
  have hsum : M.length = (List.map List.length (g0 :: gt)).sum := by
    rw [← List.length_flatten, hperm.length_eq]
  have hM2 : 2 ≤ M.length := by
    rw [hsum, List.map_cons, List.sum_cons]
    omega
  refine ⟨fun g hgin => ?_, ?_, ?_⟩
  · unfold two_pass_multi_covar
    rw [if_neg (Nat.not_lt.mpr (hg g hgin))]
  · unfold two_pass_multi_covar
    rw [if_neg (Nat.not_lt.mpr hM2)]
  · have hc1 : ¬(((g0 :: gt).map groupStats).length ≠
        ((g0 :: gt).map List.length).length) := by simp
    have hall : ((g0 :: gt).map groupStats).all
        (fun q => symmCheck q.cov) = true := by
      rw [List.all_eq_true]
      intro q hq
      obtain ⟨g, _, rfl⟩ := List.mem_map.mp hq
      exact symmCheck_two_pass g
    have hns : ¬(((g0 :: gt).map List.length).sum < 2) := by
      rw [← hsum]
      omega
    have hzip : (((g0 :: gt).map groupStats).zip
        ((g0 :: gt).map List.length)) =
        (groupStats g0, g0.length) :: gt.map (fun g => (groupStats g, g.length)) := by
      rw [List.zip_map']
      simp
    unfold combine_cov_estimates
    rw [if_neg hc1, if_pos hall, if_neg hns, hzip]
    show Except.ok
        (((gt.map (fun g => (groupStats g, g.length))).map toPC).foldl
          combinePair (toPC (groupStats g0, g0.length))).cov = _
    rw [List.map_map]
    have hmaps : gt.map (toPC ∘ fun g => (groupStats g, g.length)) =
        gt.map statsFull :=
      List.map_congr_left fun g _ => toPC_groupStats g
    rw [hmaps, toPC_groupStats g0, foldl_statsFull gt g0
      (List.ne_nil_of_length_pos (by omega))
      (fun x hx => List.ne_nil_of_length_pos
        (by have := hg x (by simp [hx]); omega))]
    apply congrArg
    funext i j
    show covEntry ((g0 :: gt).flatten) i j = two_pass_matrix M i j
    rw [two_pass_matrix_eq_covEntry]
    exact covEntry_perm hperm i j

/-! ### Claim theorems -/

theorem partition_combine_roundtrip_witness :
    combine_cov_estimates ([exG1, exG2].map groupStats)
        ([exG1, exG2].map List.length) = .ok (two_pass_matrix exRows) :=
  (partition_combine_roundtrip exRows [exG1, exG2] (by simp)
    (by
      intro g hgin
      rcases List.mem_cons.mp hgin with rfl | h2
      · decide
      rcases List.mem_cons.mp h2 with rfl | h3
      · decide
      simp at h3)
    (by exact List.Perm.refl exRows)).2.2

/-- C2: on two equal-length sequences with at least two observations,
`online_covar` returns exactly the sample covariance with Bessel's
correction, `sum ((x1 i - mean x1) * (x2 i - mean x2)) / (n - 1)`. -/
theorem online_covar_is_sample_covariance (x1 x2 : List ℚ)
    (h : x1.length = x2.length) (hn : 2 ≤ x1.length) :
    online_covar x1 x2 = .ok (pairSampleCov x1 x2) :=
  online_covar_ok h hn

theorem online_covar_is_sample_covariance_witness :
    online_covar exX1 exX2 = .ok (pairSampleCov exX1 exX2) ∧
      pairSampleCov exX1 exX2 = 10 / 3 :=
  ⟨online_covar_is_sample_covariance exX1 exX2 (by decide) (by decide),
   by norm_num [pairSampleCov, mean, exX1, exX2, List.zip, List.zipWith]⟩

/-- C3: `online_covar` is symmetric in its two arguments (also on the
error cases, which coincide). -/
theorem online_covar_symmetric (x1 x2 : List ℚ) :
    online_covar x1 x2 = online_covar x2 x1 := by
  by_cases h : x1.length = x2.length
  · by_cases h2 : x1.length < 2
    · have c1 : ¬(x1.length ≠ x2.length) := fun hc => hc h
      have c2 : ¬(x2.length ≠ x1.length) := fun hc => hc h.symm
      unfold online_covar
      rw [if_neg c1, if_neg c2, if_pos h2, if_pos (h ▸ h2)]
    · rw [online_covar_ok h (Nat.not_lt.mp h2),
        online_covar_ok h.symm (h ▸ Nat.not_lt.mp h2),
        pairSampleCov_comm h]
  · unfold online_covar
    rw [if_pos h, if_pos (fun e => h e.symm)]

/-- C4: for a sample matrix with at least two rows, `two_pass_multi_covar`
succeeds and its matrix is exactly symmetric. -/
theorem two_pass_multi_covar_symmetric {p : ℕ} (rows : List (Sample p))
    (h : 2 ≤ rows.length) (i j : Fin p) :
    two_pass_multi_covar rows = .ok (two_pass_matrix rows) ∧
      two_pass_matrix rows i j = two_pass_matrix rows j i :=
  ⟨by unfold two_pass_multi_covar; rw [if_neg (Nat.not_lt.mpr h)],
   two_pass_matrix_comm rows i j⟩

theorem two_pass_multi_covar_symmetric_witness :
    2 ≤ exRows.length ∧
      (two_pass_multi_covar exRows = .ok (two_pass_matrix exRows) ∧
        two_pass_matrix exRows 0 1 = two_pass_matrix exRows 1 0) :=
  ⟨by decide, two_pass_multi_covar_symmetric exRows (by decide) 0 1⟩

/-- C5: for a sample matrix with at least two rows, every diagonal entry of
the `two_pass_multi_covar` matrix is the sample variance of that column. -/
theorem two_pass_multi_covar_diagonal_variance {p : ℕ}
    (rows : List (Sample p)) (h : 2 ≤ rows.length) (i : Fin p) :
    two_pass_multi_covar rows = .ok (two_pass_matrix rows) ∧
      two_pass_matrix rows i i = sampleVariance (colVals rows i) := by
  refine ⟨by unfold two_pass_multi_covar; rw [if_neg (Nat.not_lt.mpr h)], ?_⟩
  rw [two_pass_matrix_eq_covEntry]
  unfold covEntry sampleVariance crossSum mean
  rw [show (colVals rows i).length = rows.length from List.length_map _ _]
  congr 1
  unfold colVals
  rw [List.map_map]
  refine congrArg List.sum (List.map_congr_left fun r _ => ?_)
  show (r i - colMean rows i) * (r i - colMean rows i) =
    (r i - (rows.map fun r => r i).sum / (rows.length : ℚ)) ^ 2
  rw [pow_two]
  rfl

theorem two_pass_multi_covar_diagonal_variance_witness :
    2 ≤ exRows.length ∧
      two_pass_matrix exRows 1 1 = sampleVariance (colVals exRows 1) :=
  ⟨by decide,
   (two_pass_multi_covar_diagonal_variance exRows (by decide) 1).2⟩

/-- C6: the pairwise combination step of `combine_cov_estimates` is exactly
associative on valid partial results (partition counts at least 1), and
commutative, so the order of iterative combination over the partitions does
not affect the final result. -/
theorem combine_cov_estimates_assoc {p : ℕ} (a b c : PartialCov p)
    (ha : 1 ≤ a.n) (hb : 1 ≤ b.n) (hc : 1 ≤ c.n) :
    combinePair (combinePair a b) c = combinePair a (combinePair b c) ∧
      combinePair a b = combinePair b a :=
  ⟨combinePair_assoc ha hb hc, combinePair_comm a b⟩

theorem combine_cov_estimates_assoc_witness :
    combinePair (combinePair exPa exPb) exPc =
      combinePair exPa (combinePair exPb exPc) :=
  (combine_cov_estimates_assoc exPa exPb exPc (by decide) (by decide)
    (by decide)).1

/-- C7: `online_covar` fails with a dimension-mismatch error whenever the
two inputs differ in length, and fails with an insufficient-samples error
for every equal-length input with fewer than 2 observations (the one fixed
policy of the model). -/
theorem online_covar_error_policy (x1 x2 : List ℚ) :
    (x1.length ≠ x2.length →
      online_covar x1 x2 = .error .dimensionMismatch) ∧
      (x1.length = x2.length → x1.length < 2 →
        online_covar x1 x2 = .error .insufficientSamples) := by
  constructor
  · intro hne
    unfold online_covar
    rw [if_pos hne]
  · intro he hlt
    have c1 : ¬(x1.length ≠ x2.length) := fun hc => hc he
    unfold online_covar
    rw [if_neg c1, if_pos hlt]

theorem online_covar_error_policy_witness :
    online_covar [1] [1, 2] = .error .dimensionMismatch ∧
      online_covar [1] [1] = .error .insufficientSamples :=
  ⟨(online_covar_error_policy [1] [1, 2]).1 (by decide),
   (online_covar_error_policy [1] [1]).2 (by decide) (by decide)⟩

/-- C8: `combine_cov_estimates` fails with a shape-mismatch error when the
sample-count list does not align with the partial-result list or some
partial matrix is asymmetric, and with an insufficient-samples error when
the total combined count is below 2; validation precedes any
combination. -/
theorem combine_cov_estimates_error_policy {p : ℕ}
    (parts : List (PartialStats p)) (ns : List ℕ) :
    (parts.length ≠ ns.length →
      combine_cov_estimates parts ns = .error .shapeMismatch) ∧
      (parts.length = ns.length →
        (∃ q ∈ parts, ∃ i j, q.cov i j ≠ q.cov j i) →
        combine_cov_estimates parts ns = .error .shapeMismatch) ∧
      (parts.length = ns.length →
        (∀ q ∈ parts, ∀ i j, q.cov i j = q.cov j i) → ns.sum < 2 →
        combine_cov_estimates parts ns = .error .insufficientSamples) := by
  refine ⟨fun hne => ?_, fun he hasym => ?_, fun he hsym hlt => ?_⟩
  · unfold combine_cov_estimates
    rw [if_pos hne]
  · have c1 : ¬(parts.length ≠ ns.length) := fun hc => hc he
    have hall : ¬(parts.all (fun q => symmCheck q.cov) = true) := by
      rw [List.all_eq_true]
      intro hforall
      obtain ⟨q, hq, i, j, hne2⟩ := hasym
      have hs := hforall q hq
      unfold symmCheck at hs
      rw [decide_eq_true_eq] at hs
      exact hne2 (hs i j)
    unfold combine_cov_estimates
    rw [if_neg c1, if_neg hall]
  · have c1 : ¬(parts.length ≠ ns.length) := fun hc => hc he
    have hall : parts.all (fun q => symmCheck q.cov) = true := by
      rw [List.all_eq_true]
      intro q hq
      unfold symmCheck
      rw [decide_eq_true_eq]
      exact hsym q hq
    unfold combine_cov_estimates
    rw [if_neg c1, if_pos hall, if_pos hlt]

theorem combine_cov_estimates_error_policy_witness :
    combine_cov_estimates ([] : List (PartialStats 1)) [0] =
        .error .shapeMismatch ∧
      combine_cov_estimates [exAsym] [5] = .error .shapeMismatch ∧
      combine_cov_estimates [exSym] [1] = .error .insufficientSamples :=
  ⟨(combine_cov_estimates_error_policy [] [0]).1 (by decide),
   (combine_cov_estimates_error_policy [exAsym] [5]).2.1 (by decide)
     (by decide),
   (combine_cov_estimates_error_policy [exSym] [1]).2.2 (by decide)
     (by decide) (by decide)⟩

/-- C9: the combiner receives each partition's mean vector alongside its
covariance matrix and count, and its pairwise step realises exactly the
stated parallel-combination formula for the count, the weighted mean, and
the covariance with the mean-shift correction term. -/
theorem combine_cov_estimates_formula {p : ℕ} (a b : PartialCov p)
    (i j : Fin p) :
    (combinePair a b).n = a.n + b.n ∧
      (combinePair a b).mean i =
        ((a.n : ℚ) * a.mean i + (b.n : ℚ) * b.mean i) /
          ((a.n : ℚ) + (b.n : ℚ)) ∧
      (combinePair a b).cov i j =
        (((a.n : ℚ) - 1) * a.cov i j + ((b.n : ℚ) - 1) * b.cov i j +
            (a.mean i - b.mean i) * (a.mean j - b.mean j) *
              ((a.n : ℚ) * (b.n : ℚ) / ((a.n : ℚ) + (b.n : ℚ)))) /
          (((a.n : ℚ) + (b.n : ℚ)) - 1) :=
  ⟨rfl, rfl, rfl⟩

/-- C10: each exported entry point calls its native routine exactly once
inside the BEGIN_RCPP/END_RCPP barrier; a native failure surfaces as a
host-interpreter error, and a native success is returned wrapped,
unmodified. -/
theorem rcpp_wrappers_single_call :
    (∀ x1 x2 : List ℚ,
      (cytominergallery_online_covar x1 x2).2 = 1 ∧
        (∀ v, online_covar x1 x2 = .ok v →
          (cytominergallery_online_covar x1 x2).1 = .ok (.real v)) ∧
        (∀ e, online_covar x1 x2 = .error e →
          (cytominergallery_online_covar x1 x2).1 = .rerror e)) ∧
      (∀ (p : ℕ) (s : List (Sample p)),
        (cytominergallery_two_pass_multi_covar s).2 = 1 ∧
          (∀ v, two_pass_multi_covar s = .ok v →
            (cytominergallery_two_pass_multi_covar s).1 = .ok (.rmat p v)) ∧
          (∀ e, two_pass_multi_covar s = .error e →
            (cytominergallery_two_pass_multi_covar s).1 = .rerror e)) ∧
      (∀ (p : ℕ) (mn_covs : List (PartialStats p)) (ns : List ℕ),
        (cytominergallery_combine_cov_estimates mn_covs ns).2 = 1 ∧
          (∀ v, combine_cov_estimates mn_covs ns = .ok v →
            (cytominergallery_combine_cov_estimates mn_covs ns).1 =
              .ok (.rmat p v)) ∧
          (∀ e, combine_cov_estimates mn_covs ns = .error e →
            (cytominergallery_combine_cov_estimates mn_covs ns).1 =
              .rerror e)) := by
  refine ⟨fun x1 x2 => ⟨rfl, fun v hv => ?_, fun e hev => ?_⟩,
    fun p s => ⟨rfl, fun v hv => ?_, fun e hev => ?_⟩,
    fun p mn_covs ns => ⟨rfl, fun v hv => ?_, fun e hev => ?_⟩⟩
  · simp [cytominergallery_online_covar, callCounted, beginEndRcpp, Except.map, hv]
  · simp [cytominergallery_online_covar, callCounted, beginEndRcpp, Except.map, hev]
  · simp [cytominergallery_two_pass_multi_covar, callCounted, beginEndRcpp,
      Except.map, hv]
  · simp [cytominergallery_two_pass_multi_covar, callCounted, beginEndRcpp,
      Except.map, hev]
  · simp [cytominergallery_combine_cov_estimates, callCounted, beginEndRcpp,
      Except.map, hv]
  · simp [cytominergallery_combine_cov_estimates, callCounted, beginEndRcpp,
      Except.map, hev]

theorem rcpp_wrappers_single_call_witness :
    (cytominergallery_online_covar [1, 2] [3, 4]).1 = .ok (.real (1 / 2)) ∧
      (cytominergallery_online_covar [1] [2, 3]).1 =
        .rerror .dimensionMismatch :=
  ⟨(rcpp_wrappers_single_call.1 [1, 2] [3, 4]).2.1 (1 / 2)
     (by norm_num [online_covar, ocStep, List.zip, List.zipWith]),
   (rcpp_wrappers_single_call.1 [1] [2, 3]).2.2 .dimensionMismatch
     (by rfl)⟩

end CytominerGallery
